import Mathlib

/-!
# Verification of `primes.c` (dbry/workers)

A shallow embedding of the segmented, bit-packed sieve of Eratosthenes from
`src/primes.c`, together with proofs about its components: the bit-sieve
primitives, the base-sieve builder, the slice-partitioning policy, the
per-slice sieve, the counting scans and the driver/merge protocol.

Modelling conventions:
* Machine integers (`int`, `uint64_t`) are modelled as `Nat`.  All quantities
  manipulated by the program are nonnegative, and the development proves the
  bounds showing that no intermediate exceeds its declared C type in the
  supported range (N ≤ 10^15), so `Nat` arithmetic agrees with the C
  arithmetic.
* The byte buffers (`primes`, `slice_primes`) are modelled as total functions
  `Nat → Nat` from byte index to byte value; `calloc` yields the constant-zero
  function.  The program never reads outside the allocated range, so the
  behaviour on the (unallocated) tail of the function is irrelevant to every
  theorem below.
* `ceil`/`sqrt` on `double` are modelled by exact natural-number ceiling
  operations (`ceilSqrt`, `ceilDivNat`): for every argument arising in the
  supported range (values ≤ 10^15 + 2^20 < 2^53, quotients below 2^25 whose
  distance to the nearest integer exceeds the relative rounding error) the
  correctly-rounded double computation coincides with the exact value.
* The worker-pool library (`workers.h`) is not part of the sources.  Modelled
  from the spec: `workerSync` grants mutually-exclusive access in strict slice
  submission order (spec §4.5, approach (b), and §9), so the run is modelled
  as the slices executing their merge sections sequentially in slice order.
-/

namespace Primes

/-! ## BitSieve primitives

`primes [v >> 4] & (1 << ((v >> 1) & 0x7))` tests the bit for value `v`;
`|=` of the same mask sets it.  `v >> 4` is `v / 16`, `(v >> 1) & 0x7` is
`v / 2 % 8`. -/

/-- Bit test for value `v` with mask `1 << ((v >> 1) & 7)`, as in
`prime_slice` (lines 222 and 227 of `primes.c`). -/
def testHit (mem : Nat → Nat) (v : Nat) : Bool :=
  mem (v / 16) &&& (1 <<< (v / 2 % 8)) != 0

/-- Bit test with mask `(v & 1) << ((v >> 1) & 7)`, as written in the base
builder and base scan (lines 113 and 120 of `primes.c`).  For odd `v` it
agrees with `testHit`. -/
def baseTestHit (mem : Nat → Nat) (v : Nat) : Bool :=
  mem (v / 16) &&& ((v % 2) <<< (v / 2 % 8)) != 0

/-- `mem [v >> 4] |= 1 << ((v >> 1) & 0x7)`: mark value `v` composite. -/
def markStep (mem : Nat → Nat) (v : Nat) : Nat → Nat :=
  fun i => if i = v / 16 then mem (v / 16) ||| (1 <<< (v / 2 % 8)) else mem i

/-- The inner marking loop `for (c = start; c < bound; c += step) mark c`,
shared shape of lines 114–115 and 223–224 of `primes.c`. -/
def markRun (mem : Nat → Nat) (bound step c : Nat) : Nat → Nat :=
  if h1 : c < bound then
    if h2 : 0 < step then markRun (markStep mem c) bound step (c + step)
    else mem
  else mem
termination_by bound - c
decreasing_by omega

/-! ## Base sieve builder (lines 108–123 of `primes.c`) -/

/-- The outer loop of the base builder:
`for (t = 3; t * t < B; t += 2) if (unmarked t) mark t*t, t*t+2t, … < B`. -/
def baseLoop (mem : Nat → Nat) (B t : Nat) : Nat → Nat :=
  if h : t * t < B then
    baseLoop
      (if baseTestHit mem t then mem else markRun mem B (t * 2) (t * t))
      B (t + 2)
  else mem
termination_by B - t * t
decreasing_by
  have : t * t < (t + 2) * (t + 2) := by nlinarith
  omega

/-- The fully built base table: a zeroed buffer with value 1 pre-marked
(`primes [0] |= 1`), then the builder loop from `t = 3`. -/
def basePrimes (B : Nat) : Nat → Nat :=
  baseLoop (markStep (fun _ => 0) 1) B 3

/-- The seeding scan, lines 119–123:
`for (t = 3; t < B && t < N; t += 2) if (unmarked t) { last = t; count++; }`.
`last` models the C variable `last_prime` (uninitialised in the source; the
initial value is threaded as a parameter and is returned unchanged only when
the loop body never fires, which cannot happen for the program's inputs). -/
def baseScanLoop (mem : Nat → Nat) (B N t count last : Nat) : Nat × Nat :=
  if h : t < B ∧ t < N then
    if baseTestHit mem t then baseScanLoop mem B N (t + 2) count last
    else baseScanLoop mem B N (t + 2) (count + 1) t
  else (count, last)
termination_by B - t
decreasing_by all_goals omega

/-- The seeding scan with the program's initial state: `prime_count = 1`
(prime 2 pre-counted), starting at `t = 3`. -/
def baseScan (mem : Nat → Nat) (B N : Nat) : Nat × Nat :=
  baseScanLoop mem B N 3 1 0

/-! ## Slice plan (lines 76–96 of `primes.c`) -/

/-- `n + (-n & 0xf)`: round up to the next multiple of 16. -/
def roundUp16 (n : Nat) : Nat := n + (16 - n % 16) % 16

/-- Models `(int) ceil (sqrt (x))` for `x ≤ 10^15 + 2^20 < 2^53`, where the
double computation is exact: the least `k` with `x ≤ k * k`. -/
def ceilSqrt (n : Nat) : Nat :=
  if Nat.sqrt n * Nat.sqrt n = n then Nat.sqrt n else Nat.sqrt n + 1

/-- Models `(int) ceil ((double) a / b)` for the quotients arising here,
where the double computation is exact: `⌈a / b⌉`. -/
def ceilDivNat (a b : Nat) : Nat := (a + b - 1) / b

/-- Outcome of the strategy selection on `max_prime`. -/
inductive PlanResult where
  /-- `max_prime > 10^15`: "limited to a quadrillion", exit 1. -/
  | rangeError : PlanResult
  /-- `max_prime < 10`: "must be at least 10", exit 1. -/
  | smallError : PlanResult
  /-- Chosen `max_base_prime` and `num_slices`. -/
  | plan : Nat → Nat → PlanResult
deriving DecidableEq

/-- Lines 76–96: select `max_base_prime` and `num_slices` from `max_prime`. -/
def slicePlan (N : Nat) : PlanResult :=
  if N > 1000000000000000 then .rangeError
  else if N > 1000000000000 then
    let B := roundUp16 (ceilSqrt N)
    .plan B (ceilDivNat (N - B) B)
  else if N > 1048576 then
    .plan 1048576 (ceilDivNat (N - 1048576) 1048576)
  else if N ≥ 10 then .plan (roundUp16 N) 0
  else .smallError

/-! ## Per-slice sieve `prime_slice` (lines 213–259 of `primes.c`) -/

/-- The starting offset of the factor-`t` marking loop (line 223):
`((slice_start + t - 1) / (t * 2) * 2 + 1) * t - slice_start`. -/
def sliceStartOffset (start t : Nat) : Nat :=
  ((start + t - 1) / (t * 2) * 2 + 1) * t - start

/-- Lines 221–224: for each odd `t < lim` unmarked in the base table, mark
every step-`2t` offset from `sliceStartOffset start t` below `sliceCount`. -/
def sliceFactorLoop (base mem : Nat → Nat) (start sliceCount lim t : Nat) :
    Nat → Nat :=
  if h : t < lim then
    sliceFactorLoop base
      (if testHit base t then mem
       else markRun mem sliceCount (t * 2) (sliceStartOffset start t))
      start sliceCount lim (t + 2)
  else mem
termination_by lim - t
decreasing_by omega

/-- Lines 226–230: scan offsets `t = 1, 3, 5, … < len` of the slice buffer;
unmarked offsets record `last = start + t` and bump the count. -/
def sliceScanLoop (mem : Nat → Nat) (start len t count last : Nat) :
    Nat × Nat :=
  if h : t < len then
    if testHit mem t then sliceScanLoop mem start len (t + 2) count last
    else sliceScanLoop mem start len (t + 2) (count + 1) (start + t)
  else (count, last)
termination_by len - t
decreasing_by all_goals omega

/-- The computation part of `prime_slice` (lines 216–230): aligned length,
factor limit `ceil (sqrt (start + sliceCount))`, zeroed transient buffer,
factor loop from `t = 3`, then the counting scan from `t = 1` with
`num_primes = 0`, `last_prime = 0`.  Returns `(num_primes, last_prime)`. -/
def sliceResult (base : Nat → Nat) (start len : Nat) : Nat × Nat :=
  let sliceCount := roundUp16 len
  let lim := ceilSqrt (start + sliceCount)
  let mem := sliceFactorLoop base (fun _ => 0) start sliceCount lim 3
  sliceScanLoop mem start len 1 0 0

/-- `prime_slice` including its merge section (lines 241–243):
`*total_primes += num_primes; *last_prime = last_prime;`.
Takes the shared counters' prior values and returns their new values. -/
def prime_slice (base : Nat → Nat) (start len totalPrimes lastPrime : Nat) :
    Nat × Nat :=
  let r := sliceResult base start len
  (totalPrimes + r.1, r.2)

/-! ## Driver (lines 145–196 of `primes.c`)

Modelled from the spec: the worker library (`workers.h`, not in the sources)
serializes the merge sections in slice submission order (§4.5 approach (b)),
so the shared-counter updates are modelled as a sequential fold over the
slices in order.  Slice `i` starts at `max_base_prime * i`; every slice has
`max_base_prime` values except the last, which has `max_prime - start`. -/
def runSlices (base : Nat → Nat) (B S N : Nat) (i : Nat) (st : Nat × Nat) :
    Nat × Nat :=
  if h : i ≤ S then
    runSlices base B S N (i + 1)
      (prime_slice base (B * i) (if i = S then N - B * S else B) st.1 st.2)
  else st
termination_by S + 1 - i
decreasing_by omega

/-- Observable outcome of a run of `main`. -/
inductive RunResult where
  /-- No arguments: usage text, exit 0. -/
  | helpText : RunResult
  /-- `max_prime > 10^15`, exit 1, no computation. -/
  | rangeError : RunResult
  /-- `max_prime < 10`, exit 1, no computation. -/
  | smallError : RunResult
  /-- `num_workers` outside 0..100, exit 1, no computation. -/
  | workersError : RunResult
  /-- Completed: final `prime_count` and `last_prime` as printed. -/
  | done : Nat → Nat → RunResult
deriving DecidableEq

/-- Exit status of each outcome (lines 69, 78, 95, 103, 199). -/
def exitCode : RunResult → Nat
  | .done _ _ => 0
  | .helpText => 0
  | _ => 1

/-- `main`, after argument parsing: `hasArg` is `argc ≥ 2`, `N` the parsed
`max_prime`, `w` the parsed `num_workers` (an `int`, possibly negative).
The reported totals do not depend on the worker count (spec §5/§8), which the
model makes literal; `w` only gates the range check at lines 101–104. -/
def runMain (hasArg : Bool) (N : Nat) (w : Int) : RunResult :=
  if !hasArg then .helpText
  else
    match slicePlan N with
    | .rangeError => .rangeError
    | .smallError => .smallError
    | .plan B S =>
      if w < 0 ∨ w > 100 then .workersError
      else
        let mem := basePrimes B
        let seed := baseScan mem B N
        if S = 0 then .done seed.1 seed.2
        else
          let final := runSlices mem B S N 1 seed
          .done final.1 final.2

/-! ## Reference prime counting -/

/-- π(N): the number of primes strictly below `N`. -/
def piCount (N : Nat) : Nat := ((Finset.range N).filter Nat.Prime).card

/-- The odd values in `[lo, stop)` whose bit in `mem` is clear. -/
def oddUnmarked (mem : Nat → Nat) (lo stop : Nat) : Finset Nat :=
  (Finset.range stop).filter
    (fun w => lo ≤ w ∧ w % 2 = 1 ∧ testHit mem w = false)

/-! ## Bit-level lemmas

The byte/bit address of value `v` is `(v / 16, v / 2 % 8)`, which is in
bijection with `v / 2`; on odd values the addressing is injective. -/

theorem testHit_eq (mem : Nat → Nat) (v : Nat) :
    testHit mem v = (mem (v / 16)).testBit (v / 2 % 8) := by
  unfold testHit
  rw [Nat.one_shiftLeft, Nat.and_two_pow]
  cases h : (mem (v / 16)).testBit (v / 2 % 8) <;>
    simp [h, Nat.pos_iff_ne_zero, pow_ne_zero]

theorem baseTestHit_eq_testHit (mem : Nat → Nat) {v : Nat}
    (hv : v % 2 = 1) : baseTestHit mem v = testHit mem v := by
  unfold baseTestHit testHit
  rw [hv]

theorem testHit_congr (mem : Nat → Nat) {v w : Nat} (h : v / 2 = w / 2) :
    testHit mem v = testHit mem w := by
  rw [testHit_eq, testHit_eq]
  have h1 : v / 16 = w / 16 := by omega
  have h2 : v / 2 % 8 = w / 2 % 8 := by omega
  rw [h1, h2]

theorem testHit_zero (v : Nat) : testHit (fun _ => 0) v = false := by
  rw [testHit_eq]
  exact Nat.zero_testBit _

theorem testHit_markStep (mem : Nat → Nat) (c v : Nat) :
    testHit (markStep mem c) v
      = (testHit mem v || decide (v / 2 = c / 2)) := by
  rw [testHit_eq, testHit_eq]
  show (if v / 16 = c / 16 then mem (c / 16) ||| 1 <<< (c / 2 % 8)
        else mem (v / 16)).testBit (v / 2 % 8) = _
  by_cases h : v / 16 = c / 16
  · rw [if_pos h, ← h, Nat.one_shiftLeft, Nat.testBit_or, Nat.testBit_two_pow]
    congr 1
    simp only [decide_eq_decide]
    omega
  · rw [if_neg h]
    have hne : ¬ (v / 2 = c / 2) := by omega
    simp [hne]

/-- Two odd values with the same half are equal: addressing is injective on
odd values. -/
theorem odd_half_inj {a b : Nat} (ha : a % 2 = 1) (hb : b % 2 = 1)
    (h : a / 2 = b / 2) : a = b := by omega

theorem testHit_markRun (mem : Nat → Nat) (bound step c v : Nat)
    (hstep : 0 < step) :
    testHit (markRun mem bound step c) v = true ↔
      testHit mem v = true ∨
        ∃ k, c + step * k < bound ∧ (c + step * k) / 2 = v / 2 := by
  induction mem, bound, step, c using markRun.induct with
  | case1 mem bound step c h1 h2 ih =>
    rw [markRun, dif_pos h1, dif_pos h2]
    rw [ih hstep, testHit_markStep]
    constructor
    · rintro (hold | hk)
      · rcases Bool.or_eq_true_iff.mp hold with hmem | hdec
        · exact Or.inl hmem
        · refine Or.inr ⟨0, by simpa using h1, ?_⟩
          have := of_decide_eq_true hdec
          omega
      · obtain ⟨k, hk1, hk2⟩ := hk
        refine Or.inr ⟨k + 1, ?_, ?_⟩
        · have : c + step + step * k = c + step * (k + 1) := by ring
          omega
        · have : c + step + step * k = c + step * (k + 1) := by ring
          omega
    · rintro (hmem | ⟨k, hk1, hk2⟩)
      · exact Or.inl (by simp [hmem])
      · match k with
        | 0 =>
          refine Or.inl (Bool.or_eq_true_iff.mpr (Or.inr ?_))
          simp only [Nat.mul_zero, Nat.add_zero] at hk2
          simp only [decide_eq_true_eq]
          omega
        | k + 1 =>
          refine Or.inr ⟨k, ?_, ?_⟩
          · have : c + step + step * k = c + step * (k + 1) := by ring
            omega
          · have : c + step + step * k = c + step * (k + 1) := by ring
            omega
  | case2 mem bound step c h1 h2 =>
    exact absurd hstep h2
  | case3 mem bound step c h1 =>
    rw [markRun, dif_neg h1]
    constructor
    · exact Or.inl
    · rintro (hmem | ⟨k, hk1, _⟩)
      · exact hmem
      · exact absurd hk1 (by omega)

theorem testHit_markRun_mono (mem : Nat → Nat) (bound step c v : Nat)
    (h : testHit mem v = true) :
    testHit (markRun mem bound step c) v = true := by
  induction mem, bound, step, c using markRun.induct with
  | case1 mem bound step c h1 h2 ih =>
    rw [markRun, dif_pos h1, dif_pos h2]
    exact ih (by simp [testHit_markStep, h])
  | case2 mem bound step c h1 h2 => rwa [markRun, dif_pos h1, dif_neg h2]
  | case3 mem bound step c h1 => rwa [markRun, dif_neg h1]

/-! ## Base sieve correctness

The builder's invariants: every marked odd value is 1 or composite
(soundness), and every odd composite below `B` with an odd prime factor
`p < t`, `p * p ≤ w`, is already marked (completeness up to `t`). -/

/-- Every marked odd value is 1 or composite. -/
def MarkedSound (mem : Nat → Nat) : Prop :=
  ∀ w, w % 2 = 1 → testHit mem w = true → w = 1 ∨ ¬ w.Prime

/-- Every odd composite in `[3, B)` with an odd prime factor `p < t` whose
square does not exceed it is marked. -/
def MarkedComplete (mem : Nat → Nat) (B t : Nat) : Prop :=
  ∀ w, w % 2 = 1 → 3 ≤ w → w < B → ¬ w.Prime →
    (∃ p, p % 2 = 1 ∧ p < t ∧ p.Prime ∧ p * p ≤ w ∧ p ∣ w) →
    testHit mem w = true

/-- The least factor of an odd composite `w ≥ 3` is an odd prime with
`p * p ≤ w` and `p < w`. -/
theorem minFac_facts {w : Nat} (hw : w % 2 = 1) (h3 : 3 ≤ w)
    (hnp : ¬ w.Prime) :
    w.minFac % 2 = 1 ∧ w.minFac.Prime ∧ w.minFac * w.minFac ≤ w ∧
      w.minFac ∣ w := by
  have hne1 : w ≠ 1 := by omega
  have hp := Nat.minFac_prime hne1
  have hd := Nat.minFac_dvd w
  have hsq : w.minFac * w.minFac ≤ w := by
    have := Nat.minFac_sq_le_self (by omega) hnp
    nlinarith [this]
  refine ⟨?_, hp, hsq, hd⟩
  rcases hp.eq_two_or_odd with h2 | hodd
  · exfalso; rw [h2] at hd; omega
  · exact hodd

/-- A product of two odd factors, both at least 3, is not prime. -/
theorem not_prime_mul_factors {t m : Nat} (ht : 3 ≤ t) (hm : 3 ≤ m) :
    ¬ (t * m).Prime := by
  intro hp
  rcases (Nat.Prime.eq_one_or_self_of_dvd hp t ⟨m, rfl⟩) with h1 | hself
  · omega
  · have hm1 : m = 1 := by
      have ht0 : 0 < t := by omega
      have : t * m = t * 1 := by omega
      exact Nat.eq_of_mul_eq_mul_left ht0 this
    omega

/-- When the builder loop has reached `t` with `t * t ≥ B`, completeness up
to `t` is full completeness: every odd composite in `[3, B)` is marked. -/
theorem markedComplete_full {mem : Nat → Nat} {B t : Nat} (h : B ≤ t * t)
    (hC : MarkedComplete mem B t) :
    ∀ w, w % 2 = 1 → 3 ≤ w → w < B → ¬ w.Prime →
      testHit mem w = true := by
  intro w hw hw3 hwB hwnp
  obtain ⟨hpodd, hpp, hpsq, hpd⟩ := minFac_facts hw hw3 hwnp
  refine hC w hw hw3 hwB hwnp ⟨w.minFac, hpodd, ?_, hpp, hpsq, hpd⟩
  nlinarith

theorem baseLoop_spec (B : Nat) (fuel : Nat) :
    ∀ (mem : Nat → Nat) (t : Nat), B ≤ t * t + fuel →
    t % 2 = 1 → 3 ≤ t → MarkedSound mem → MarkedComplete mem B t →
    MarkedSound (baseLoop mem B t) ∧
    (∀ w, w % 2 = 1 → 3 ≤ w → w < B → ¬ w.Prime →
      testHit (baseLoop mem B t) w = true) := by
  induction fuel with
  | zero =>
    intro mem t hfuel ht ht3 hS hC
    rw [baseLoop, dif_neg (by omega)]
    exact ⟨hS, markedComplete_full (by omega) hC⟩
  | succ n ih =>
    intro mem t hfuel ht ht3 hS hC
    by_cases h : t * t < B
    · rw [baseLoop, dif_pos h]
      have hstep : t * t + 1 ≤ (t + 2) * (t + 2) := by nlinarith
      refine ih _ (t + 2) (by omega) (by omega) (by omega) ?_ ?_
      · -- soundness is preserved by the conditional marking
        by_cases hm : baseTestHit mem t
        · simpa [hm] using hS
        · simp only [hm, Bool.false_eq_true, if_false]
          intro w hw hmark
          rw [testHit_markRun _ _ _ _ _ (by omega)] at hmark
          rcases hmark with hold | ⟨k, _, hk2⟩
          · exact hS w hw hold
          · right
            have hval : (t * t + t * 2 * k) % 2 = 1 := by
              have h1 : t * t % 2 = 1 := by
                rcases Nat.even_or_odd t with he | _
                · obtain ⟨r, hr⟩ := he
                  omega
                · exact Nat.odd_mul_odd ht ht
              have h2 : t * 2 * k = 2 * (t * k) := by ring
              omega
            have hw2 : w = t * t + t * 2 * k :=
              (odd_half_inj hval hw hk2).symm
            have hfac : w = t * (t + 2 * k) := by rw [hw2]; ring
            rw [hfac]
            exact not_prime_mul_factors ht3 (by omega)
      · -- completeness advances from t to t + 2
        by_cases hm : baseTestHit mem t
        · -- t is already marked, hence composite; no new prime appears
          simp only [hm, if_true]
          have htcomp : ¬ t.Prime := by
            rcases hS t ht (by rwa [baseTestHit_eq_testHit mem ht] at hm)
              with h1 | h2
            · omega
            · exact h2
          intro w hw hw3 hwB hwnp hex
          obtain ⟨p, hp1, hp2, hp3, hp4, hp5⟩ := hex
          refine hC w hw hw3 hwB hwnp ⟨p, hp1, ?_, hp3, hp4, hp5⟩
          have : p ≠ t := fun he => htcomp (he ▸ hp3)
          omega
        · -- t is unmarked, hence prime; its multiples are freshly marked
          simp only [hm, Bool.false_eq_true, if_false]
          intro w hw hw3 hwB hwnp hex
          obtain ⟨p, hp1, hp2, hp3, hp4, hp5⟩ := hex
          by_cases hpt : p = t
          · -- w is an odd multiple of t with t * t ≤ w < B
            subst hpt
            obtain ⟨m, hmm⟩ := hp5
            have hmodd : m % 2 = 1 := by
              rcases Nat.even_or_odd m with he | ho
              · exfalso
                obtain ⟨j, hj⟩ := he
                have : w = 2 * (p * j) := by rw [hmm, hj]; ring
                omega
              · exact Nat.odd_iff.mp ho
            have hmge : p ≤ m := by nlinarith
            obtain ⟨j, hj⟩ : ∃ j, m = p + 2 * j := ⟨(m - p) / 2, by omega⟩
            rw [testHit_markRun _ _ _ _ _ (by omega)]
            refine Or.inr ⟨j, ?_, ?_⟩
            · have : p * p + p * 2 * j = w := by rw [hmm, hj]; ring
              omega
            · have : p * p + p * 2 * j = w := by rw [hmm, hj]; ring
              omega
          · -- an older prime factor: already marked; marking is monotone
            have hold := hC w hw hw3 hwB hwnp
              ⟨p, hp1, by omega, hp3, hp4, hp5⟩
            exact testHit_markRun_mono _ _ _ _ _ hold
    · rw [baseLoop, dif_neg h]
      exact ⟨hS, markedComplete_full (by omega) hC⟩

/-- Base sieve correctness: after the build over `[0, B)`, an odd value
`3 ≤ v < B` is unmarked exactly when it is prime. -/
theorem basePrimes_spec (B : Nat) :
    ∀ v, v % 2 = 1 → 3 ≤ v → v < B →
      (testHit (basePrimes B) v = false ↔ v.Prime) := by
  have h0 := baseLoop_spec B B (markStep (fun _ => 0) 1) 3 (by omega)
    (by omega) (by omega) ?_ ?_
  · intro v hv h3 hB
    obtain ⟨hS, hCfull⟩ := h0
    constructor
    · intro hunm
      by_contra hnp
      have := hCfull v hv h3 hB hnp
      rw [basePrimes] at hunm
      rw [this] at hunm
      exact absurd hunm (by simp)
    · intro hp
      by_contra hmk
      have hmk' : testHit (basePrimes B) v = true := by
        simpa using hmk
      rcases hS v hv hmk' with h1 | h2
      · omega
      · exact h2 hp
  · -- initially only the value 1 is marked
    intro w hw hmark
    rw [testHit_markStep, testHit_zero, Bool.false_or,
      decide_eq_true_eq] at hmark
    left
    omega
  · -- no odd prime is smaller than 3
    rintro w hw hw3 hwB hwnp ⟨p, hp1, hp2, hp3, _, _⟩
    exfalso
    have := hp3.two_le
    omega

/-! ## Counting scans

Both counting loops (lines 119–123 and 226–230) visit the odd positions of
an interval in increasing order, count the unmarked ones and remember the
last (hence largest) unmarked position. -/

theorem oddUnmarked_empty (mem : Nat → Nat) (lo stop : Nat) (h : stop ≤ lo) :
    oddUnmarked mem lo stop = ∅ := by
  rw [Finset.eq_empty_iff_forall_not_mem]
  intro w hw
  simp only [oddUnmarked, Finset.mem_filter, Finset.mem_range] at hw
  omega

theorem oddUnmarked_step_marked (mem : Nat → Nat) (t stop : Nat)
    (ht : t % 2 = 1) (hm : testHit mem t = true) :
    oddUnmarked mem t stop = oddUnmarked mem (t + 2) stop := by
  ext w
  simp only [oddUnmarked, Finset.mem_filter, Finset.mem_range]
  constructor
  · rintro ⟨h1, h2, h3, h4⟩
    refine ⟨h1, ?_, h3, h4⟩
    by_cases hwt : w = t
    · rw [hwt] at h4
      rw [h4] at hm
      exact Bool.noConfusion hm
    · omega
  · rintro ⟨h1, h2, h3, h4⟩
    exact ⟨h1, by omega, h3, h4⟩

theorem oddUnmarked_step_unmarked (mem : Nat → Nat) (t stop : Nat)
    (ht : t % 2 = 1) (hlt : t < stop) (hm : testHit mem t = false) :
    oddUnmarked mem t stop = insert t (oddUnmarked mem (t + 2) stop) ∧
    t ∉ oddUnmarked mem (t + 2) stop := by
  constructor
  · ext w
    simp only [oddUnmarked, Finset.mem_filter, Finset.mem_range,
      Finset.mem_insert]
    constructor
    · rintro ⟨h1, h2, h3, h4⟩
      by_cases hwt : w = t
      · exact Or.inl hwt
      · exact Or.inr ⟨h1, by omega, h3, h4⟩
    · rintro (rfl | ⟨h1, h2, h3, h4⟩)
      · exact ⟨hlt, le_refl _, ht, hm⟩
      · exact ⟨h1, by omega, h3, h4⟩
  · simp only [oddUnmarked, Finset.mem_filter, Finset.mem_range]
    rintro ⟨h1, h2, _, _⟩
    omega

theorem sliceScanLoop_spec (mem : Nat → Nat) (start len t count last : Nat) :
    t % 2 = 1 →
    (sliceScanLoop mem start len t count last).1
      = count + (oddUnmarked mem t len).card ∧
    ((oddUnmarked mem t len = ∅ ∧
        (sliceScanLoop mem start len t count last).2 = last) ∨
      (∃ m ∈ oddUnmarked mem t len,
        (sliceScanLoop mem start len t count last).2 = start + m ∧
        ∀ x ∈ oddUnmarked mem t len, x ≤ m)) := by
  induction t, count, last using sliceScanLoop.induct mem start len with
  | case1 t count last h hm ih =>
    intro ht
    rw [sliceScanLoop, dif_pos h, if_pos hm]
    obtain ⟨ih1, ih2⟩ := ih (by omega)
    rw [oddUnmarked_step_marked mem t len ht hm]
    exact ⟨ih1, ih2⟩
  | case2 t count last h hm ih =>
    intro ht
    rw [sliceScanLoop, dif_pos h, if_neg hm]
    obtain ⟨ih1, ih2⟩ := ih (by omega)
    have hm' : testHit mem t = false := by
      revert hm
      cases testHit mem t <;> simp
    obtain ⟨hins, hnotmem⟩ :=
      oddUnmarked_step_unmarked mem t len ht h hm'
    constructor
    · rw [hins, Finset.card_insert_of_not_mem hnotmem, ih1]
      omega
    · rcases ih2 with ⟨hemp, hlast⟩ | ⟨m, hmem, hlast, hmax⟩
      · refine Or.inr ⟨t, ?_, hlast, ?_⟩
        · rw [hins, hemp]
          simp
        · intro x hx
          rw [hins, hemp] at hx
          simp at hx
          omega
      · refine Or.inr ⟨m, ?_, hlast, ?_⟩
        · rw [hins]
          exact Finset.mem_insert_of_mem hmem
        · intro x hx
          rw [hins] at hx
          rcases Finset.mem_insert.mp hx with rfl | hx'
          · simp only [oddUnmarked, Finset.mem_filter,
              Finset.mem_range] at hmem
            omega
          · exact hmax x hx'
  | case3 t count last h =>
    intro ht
    rw [sliceScanLoop, dif_neg h]
    have hemp := oddUnmarked_empty mem t len (by omega)
    rw [hemp]
    exact ⟨by simp, Or.inl ⟨rfl, rfl⟩⟩

/-- The base scan is the generic scan over `[t, min B N)` recording bare
positions (`start = 0`), provided the scanned positions are odd (so the
`(t & 1)` mask in the test reads the bit for `t`). -/
theorem baseScanLoop_eq (mem : Nat → Nat) (B N t count last : Nat) :
    t % 2 = 1 →
    baseScanLoop mem B N t count last
      = sliceScanLoop mem 0 (min B N) t count last := by
  induction t, count, last using baseScanLoop.induct mem B N with
  | case1 t count last h hm ih =>
    intro ht
    rw [baseScanLoop, dif_pos h, if_pos hm]
    rw [sliceScanLoop, dif_pos (by omega),
      if_pos (by rwa [← baseTestHit_eq_testHit mem ht])]
    exact ih (by omega)
  | case2 t count last h hm ih =>
    intro ht
    rw [baseScanLoop, dif_pos h, if_neg hm]
    rw [sliceScanLoop, dif_pos (by omega),
      if_neg (by rwa [← baseTestHit_eq_testHit mem ht])]
    rw [Nat.zero_add]
    exact ih (by omega)
  | case3 t count last h =>
    intro ht
    rw [baseScanLoop, dif_neg h, sliceScanLoop, dif_neg (by omega)]

/-- The seeding scan (lines 117–123): `prime_count` becomes 1 plus the
number of unmarked odd values in `[3, min B N)`, and `last_prime` becomes
the largest of them (when one exists). -/
theorem baseScan_spec (mem : Nat → Nat) (B N : Nat) :
    (baseScan mem B N).1 = 1 + (oddUnmarked mem 3 (min B N)).card ∧
    ((oddUnmarked mem 3 (min B N) = ∅ ∧ (baseScan mem B N).2 = 0) ∨
      (∃ m ∈ oddUnmarked mem 3 (min B N), (baseScan mem B N).2 = m ∧
        ∀ x ∈ oddUnmarked mem 3 (min B N), x ≤ m)) := by
  rw [baseScan, baseScanLoop_eq mem B N 3 1 0 (by omega)]
  have h := sliceScanLoop_spec mem 0 (min B N) 3 1 0 (by omega)
  simpa [Nat.zero_add] using h

/-! ## Plan arithmetic -/

theorem roundUp16_spec (n : Nat) :
    n ≤ roundUp16 n ∧ roundUp16 n < n + 16 ∧ roundUp16 n % 16 = 0 := by
  unfold roundUp16
  omega

theorem roundUp16_eq_of_dvd {n : Nat} (h : n % 16 = 0) : roundUp16 n = n := by
  unfold roundUp16
  omega

theorem roundUp16_le {m B : Nat} (hB : B % 16 = 0) (h : m ≤ B) :
    roundUp16 m ≤ B := by
  unfold roundUp16
  omega

theorem ceilSqrt_sq_ge (n : Nat) : n ≤ ceilSqrt n * ceilSqrt n := by
  unfold ceilSqrt
  by_cases h : Nat.sqrt n * Nat.sqrt n = n
  · rw [if_pos h]
    omega
  · rw [if_neg h]
    exact le_of_lt (Nat.lt_succ_sqrt n)

theorem ceilSqrt_le_iff (n k : Nat) : ceilSqrt n ≤ k ↔ n ≤ k * k := by
  constructor
  · intro h
    have h1 := ceilSqrt_sq_ge n
    calc n ≤ ceilSqrt n * ceilSqrt n := h1
    _ ≤ k * k := Nat.mul_le_mul h h
  · intro h
    unfold ceilSqrt
    by_cases hsq : Nat.sqrt n * Nat.sqrt n = n
    · rw [if_pos hsq]
      by_contra hlt
      push_neg at hlt
      have : k * k < Nat.sqrt n * Nat.sqrt n := by nlinarith
      omega
    · rw [if_neg hsq]
      by_contra hlt
      push_neg at hlt
      have hk : k ≤ Nat.sqrt n := by omega
      have h1 : k * k ≤ Nat.sqrt n * Nat.sqrt n := Nat.mul_le_mul hk hk
      have h2 := Nat.sqrt_le n
      have h3 : n = k * k := by omega
      have h4 : Nat.sqrt n = k := by
        rw [h3]
        exact Nat.sqrt_eq k
      rw [h4] at hsq
      exact hsq h3.symm

/-- Strictly below the ceiling square root means the square is strictly
below the radicand. -/
theorem lt_ceilSqrt_iff (n k : Nat) : k < ceilSqrt n ↔ k * k < n := by
  constructor
  · intro h
    by_contra hge
    push_neg at hge
    have := (ceilSqrt_le_iff n k).mpr hge
    omega
  · intro h
    by_contra hge
    push_neg at hge
    have := (ceilSqrt_le_iff n k).mp hge
    omega

/-! ## The slice sieve -/

/-- The starting-offset expression of line 223 computes the least odd
multiple of `t` that is at least `start`: letting `c` be the offset,
`start + c` is an odd multiple of `t`, `c < 2 * t`, and no smaller odd
multiple of `t` reaches `start`. -/
theorem sliceStartOffset_spec (start t : Nat) (ht : 0 < t) :
    start ≤ ((start + t - 1) / (t * 2) * 2 + 1) * t ∧
    sliceStartOffset start t < 2 * t ∧
    (∃ m, start + sliceStartOffset start t = (2 * m + 1) * t) ∧
    (∀ m, start ≤ (2 * m + 1) * t →
      start + sliceStartOffset start t ≤ (2 * m + 1) * t) := by
  set q := (start + t - 1) / (t * 2) with hq
  set e := (start + t - 1) % (t * 2) with he
  have hdm : t * 2 * q + e = start + t - 1 := Nat.div_add_mod _ _
  have helt : e < t * 2 := Nat.mod_lt _ (by omega)
  have hkey : (q * 2 + 1) * t = t * 2 * q + t := by ring
  have hkey2 : (2 * q + 1) * t = t * 2 * q + t := by ring
  have hge : start ≤ (q * 2 + 1) * t := by omega
  have hoff : sliceStartOffset start t = (q * 2 + 1) * t - start := by
    rw [sliceStartOffset, ← hq]
  refine ⟨hge, by omega, ⟨q, by omega⟩, ?_⟩
  intro m hm
  by_contra hcon
  push_neg at hcon
  have hmq : m + 1 ≤ q := by
    by_contra hq'
    push_neg at hq'
    have h1 : q * 2 + 1 ≤ 2 * m + 1 := by omega
    have h2 := Nat.mul_le_mul_right t h1
    omega
  have h1 : 2 * (m + 1) + 1 ≤ q * 2 + 1 := by omega
  have h2 := Nat.mul_le_mul_right t h1
  have h3 : (2 * (m + 1) + 1) * t = (2 * m + 1) * t + 2 * t := by ring
  omega

/-- Characterization of the factor loop of `prime_slice` (lines 221–224):
an odd offset `w` is marked exactly when it was already marked, or some odd
`t ≤ u < lim` clear in the base table has an odd multiple landing on
`start + w` with `w` inside the aligned window. -/
theorem sliceFactorLoop_spec (base : Nat → Nat) (start sliceCount lim : Nat)
    (fuel : Nat) (hstart : start % 2 = 0) :
    ∀ (mem : Nat → Nat) (t : Nat), lim ≤ t + 2 * fuel → t % 2 = 1 →
    ∀ w, w % 2 = 1 →
    (testHit (sliceFactorLoop base mem start sliceCount lim t) w = true ↔
      testHit mem w = true ∨
        ∃ u m, t ≤ u ∧ u < lim ∧ u % 2 = 1 ∧ testHit base u = false ∧
          w < sliceCount ∧ start + w = (2 * m + 1) * u) := by
  induction fuel with
  | zero =>
    intro mem t hfuel ht w hw
    rw [sliceFactorLoop, dif_neg (by omega)]
    constructor
    · exact Or.inl
    · rintro (hmem | ⟨u, m, hu1, hu2, _, _, _, _⟩)
      · exact hmem
      · omega
  | succ n ih =>
    intro mem t hfuel ht w hw
    by_cases h : t < lim
    · rw [sliceFactorLoop, dif_pos h]
      by_cases hb : testHit base t
      · -- t is marked in the base table: nothing marked this iteration
        rw [if_pos hb]
        rw [ih mem (t + 2) (by omega) (by omega) w hw]
        constructor
        · rintro (hmem | ⟨u, m, hu1, hu2, hu3, hu4, hu5, hu6⟩)
          · exact Or.inl hmem
          · exact Or.inr ⟨u, m, by omega, hu2, hu3, hu4, hu5, hu6⟩
        · rintro (hmem | ⟨u, m, hu1, hu2, hu3, hu4, hu5, hu6⟩)
          · exact Or.inl hmem
          · refine Or.inr ⟨u, m, ?_, hu2, hu3, hu4, hu5, hu6⟩
            have hut : u ≠ t := by
              intro he
              rw [he, hb] at hu4
              exact Bool.noConfusion hu4
            omega
      · -- t is prime in the base table: its odd multiples are marked
        rw [if_neg hb]
        rw [ih _ (t + 2) (by omega) (by omega) w hw]
        have ht0 : 0 < t := by omega
        obtain ⟨hge, hlt2, ⟨q0, hq0⟩, hmin⟩ := sliceStartOffset_spec start t ht0
        constructor
        · rintro (hmem | ⟨u, m, hu1, hu2, hu3, hu4, hu5, hu6⟩)
          · rw [testHit_markRun _ _ _ _ _ (by omega)] at hmem
            rcases hmem with hold | ⟨k, hk1, hk2⟩
            · exact Or.inl hold
            · -- the marked offset is sliceStartOffset + 2tk, an odd multiple
              have hxodd : (sliceStartOffset start t + t * 2 * k) % 2 = 1 := by
                have h1 : start + sliceStartOffset start t = (2 * q0 + 1) * t := hq0
                have h2 : (2 * q0 + 1) * t % 2 = 1 :=
                  Nat.odd_mul_odd (by omega) ht
                have h3 : t * 2 * k = 2 * (t * k) := by ring
                omega
              have hwx : w = sliceStartOffset start t + t * 2 * k :=
                (odd_half_inj hxodd hw hk2).symm
              refine Or.inr ⟨t, q0 + k, le_refl t, h, ht, by simpa using hb, by omega, ?_⟩
              have h4 : (2 * (q0 + k) + 1) * t = (2 * q0 + 1) * t + t * 2 * k := by ring
              omega
          · exact Or.inr ⟨u, m, by omega, hu2, hu3, hu4, hu5, hu6⟩
        · rintro (hmem | ⟨u, m, hu1, hu2, hu3, hu4, hu5, hu6⟩)
          · exact Or.inl (testHit_markRun_mono _ _ _ _ _ hmem)
          · by_cases hut : u = t
            · -- w is an odd multiple of t in the window: freshly marked
              subst hut
              left
              rw [testHit_markRun _ _ _ _ _ (by omega)]
              right
              have hmge : start + sliceStartOffset start u ≤ (2 * m + 1) * u :=
                hmin m (by omega)
              have hqm : q0 ≤ m := by
                by_contra hq'
                push_neg at hq'
                have h1 : 2 * m + 1 + 1 ≤ 2 * q0 + 1 := by omega
                have h2 := Nat.mul_le_mul_right u h1
                have h3 : (2 * m + 1 + 1) * u = (2 * m + 1) * u + u := by ring
                omega
              obtain ⟨d, rfl⟩ : ∃ d, m = q0 + d := ⟨m - q0, by omega⟩
              refine ⟨d, ?_, ?_⟩
              · have h4 : (2 * (q0 + d) + 1) * u = (2 * q0 + 1) * u + u * 2 * d := by
                  ring
                omega
              · have h4 : (2 * (q0 + d) + 1) * u = (2 * q0 + 1) * u + u * 2 * d := by
                  ring
                omega
            · exact Or.inr ⟨u, m, by omega, hu2, hu3, hu4, hu5, hu6⟩
    · rw [sliceFactorLoop, dif_neg h]
      constructor
      · exact Or.inl
      · rintro (hmem | ⟨u, m, hu1, hu2, _, _, _, _⟩)
        · exact hmem
        · omega

/-- An even number at least 4 is not prime. -/
theorem not_prime_of_even {n : Nat} (h2 : n % 2 = 0) (h4 : 4 ≤ n) :
    ¬ n.Prime := by
  intro hp
  rcases hp.eq_two_or_odd with h | h <;> omega

/-- Segmented-sieve correctness for one window: with a correct base table
covering the factor range, an odd offset `w < sliceCount` is left unmarked
by the factor loop exactly when `start + w` is prime. -/
theorem sliceSieve_prime (base : Nat → Nat) (B start sliceCount : Nat)
    (hbase : ∀ u, u % 2 = 1 → 3 ≤ u → u < B →
      (testHit base u = false ↔ u.Prime))
    (hBeven : B % 2 = 0)
    (hstart2 : start % 2 = 0) (hstart4 : 4 ≤ start)
    (hlimstart : ceilSqrt (start + sliceCount) ≤ start)
    (hlimB : ceilSqrt (start + sliceCount) ≤ B + 1) :
    ∀ w, w % 2 = 1 → w < sliceCount →
      (testHit (sliceFactorLoop base (fun _ => 0) start sliceCount
          (ceilSqrt (start + sliceCount)) 3) w = false ↔
        (start + w).Prime) := by
  intro w hw hwc
  set lim := ceilSqrt (start + sliceCount) with hlim
  set F := sliceFactorLoop base (fun _ => 0) start sliceCount lim 3 with hF
  have hiff := sliceFactorLoop_spec base start sliceCount lim lim hstart2
    (fun _ => 0) 3 (by omega) (by omega) w hw
  rw [testHit_zero, ← hF] at hiff
  constructor
  · -- unmarked implies prime
    intro hunm
    by_contra hnp
    have hv2 : (start + w) % 2 = 1 := by omega
    have hv3 : 3 ≤ start + w := by omega
    obtain ⟨hpodd, hpp, hpsq, hpd⟩ := minFac_facts hv2 hv3 hnp
    set p := (start + w).minFac with hp
    have hp3 : 3 ≤ p := by
      have := hpp.two_le
      omega
    have hplim : p < lim := by
      rw [hlim, lt_ceilSqrt_iff]
      omega
    have hpB : p < B := by omega
    obtain ⟨c, hc⟩ := hpd
    have hcodd : c % 2 = 1 := by
      rcases Nat.even_or_odd c with hec | hoc
      · exfalso
        obtain ⟨j, hj⟩ := hec
        have : start + w = 2 * (p * j) := by rw [hc, hj]; ring
        omega
      · exact Nat.odd_iff.mp hoc
    obtain ⟨m, hm⟩ : ∃ m, c = 2 * m + 1 := ⟨c / 2, by omega⟩
    have hmark : testHit F w = true := by
      rw [hiff]
      refine Or.inr ⟨p, m, hp3, hplim, hpodd,
        (hbase p hpodd hp3 hpB).mpr hpp, hwc, ?_⟩
      rw [hc, hm]
      ring
    rw [hmark] at hunm
    exact Bool.noConfusion hunm
  · -- prime implies unmarked
    intro hprime
    by_contra hmk
    have hmk' : testHit F w = true := by
      revert hmk
      cases testHit F w <;> simp
    rw [hiff] at hmk'
    rcases hmk' with hfalse | ⟨u, m, hu1, hu2, hu3, hu4, hu5, hu6⟩
    · exact Bool.noConfusion hfalse
    · have hm1 : 1 ≤ m := by
        by_contra hm0
        push_neg at hm0
        have hm0' : m = 0 := by omega
        rw [hm0'] at hu6
        have hid : (2 * 0 + 1) * u = u := by ring
        omega
      have hcomp : ¬ (start + w).Prime := by
        rw [hu6, mul_comm]
        exact not_prime_mul_factors hu1 (by omega)
      exact hcomp hprime

/-- Unfolding of `prime_slice` into its computation and merge parts. -/
theorem prime_slice_def (base : Nat → Nat) (start len total last : Nat) :
    prime_slice base start len total last
      = (total + (sliceResult base start len).1,
          (sliceResult base start len).2) := rfl

/-- For a window satisfying the driver's invariants, the slice computation
returns the number of primes in `[start, start + len)` together with the
largest such prime (or 0 when the window contains none). -/
theorem sliceResult_spec (base : Nat → Nat) (B start len : Nat)
    (hbase : ∀ u, u % 2 = 1 → 3 ≤ u → u < B →
      (testHit base u = false ↔ u.Prime))
    (hBeven : B % 2 = 0)
    (hstart16 : start % 16 = 0) (hstart16' : 16 ≤ start)
    (hlimstart : ceilSqrt (start + roundUp16 len) ≤ start)
    (hlimB : ceilSqrt (start + roundUp16 len) ≤ B + 1) :
    (sliceResult base start len).1
      = ((Finset.Ico start (start + len)).filter Nat.Prime).card ∧
    (((Finset.Ico start (start + len)).filter Nat.Prime = ∅ ∧
        (sliceResult base start len).2 = 0) ∨
      ((sliceResult base start len).2 ∈
          (Finset.Ico start (start + len)).filter Nat.Prime ∧
        ∀ x ∈ (Finset.Ico start (start + len)).filter Nat.Prime,
          x ≤ (sliceResult base start len).2)) := by
  set sliceCount := roundUp16 len with hsc
  set lim := ceilSqrt (start + sliceCount) with hlim
  set F := sliceFactorLoop base (fun _ => 0) start sliceCount lim 3 with hF
  have hres : sliceResult base start len = sliceScanLoop F start len 1 0 0 :=
    rfl
  have hlen : len ≤ sliceCount := (roundUp16_spec len).1
  have hprime := sliceSieve_prime base B start sliceCount hbase hBeven
    (by omega) (by omega) hlimstart hlimB
  rw [← hlim, ← hF] at hprime
  have hSP : (Finset.Ico start (start + len)).filter Nat.Prime
      = (oddUnmarked F 1 len).image (fun w => start + w) := by
    ext v
    simp only [Finset.mem_filter, Finset.mem_Ico, Finset.mem_image,
      oddUnmarked, Finset.mem_range]
    constructor
    · rintro ⟨⟨hv1, hv2⟩, hvp⟩
      have hvodd : v % 2 = 1 := by
        rcases hvp.eq_two_or_odd with h | h <;> omega
      have hvs : v ≠ start := by
        intro he
        exact not_prime_of_even (by omega) (by omega) (he ▸ hvp)
      refine ⟨v - start, ⟨by omega, by omega, by omega, ?_⟩, by omega⟩
      rw [hprime (v - start) (by omega) (by omega)]
      have : start + (v - start) = v := by omega
      rw [this]
      exact hvp
    · rintro ⟨w, ⟨hw1, hw2, hw3, hw4⟩, rfl⟩
      refine ⟨⟨by omega, by omega⟩, ?_⟩
      rw [← hprime w hw3 (by omega)]
      exact hw4
  have hinj : Function.Injective (fun w : Nat => start + w) := by
    intro a b hab
    simpa using hab
  have hcard : ((Finset.Ico start (start + len)).filter Nat.Prime).card
      = (oddUnmarked F 1 len).card := by
    rw [hSP, Finset.card_image_of_injective _ hinj]
  obtain ⟨hc, hl⟩ := sliceScanLoop_spec F start len 1 0 0 (by omega)
  constructor
  · rw [hres, hc, hcard]
    omega
  · rcases hl with ⟨hemp, hlast⟩ | ⟨m, hmem, hlast, hmax⟩
    · left
      rw [hSP, hemp]
      exact ⟨by simp, by rw [hres, hlast]⟩
    · right
      constructor
      · rw [hSP, hres, hlast]
        exact Finset.mem_image_of_mem _ hmem
      · intro x hx
        rw [hSP] at hx
        obtain ⟨w, hw, rfl⟩ := Finset.mem_image.mp hx
        rw [hres, hlast]
        have := hmax w hw
        omega

/-! ## Putting the pipeline together -/

theorem piCount_add (a l : Nat) :
    piCount (a + l)
      = piCount a + ((Finset.Ico a (a + l)).filter Nat.Prime).card := by
  unfold piCount
  rw [Finset.range_eq_Ico,
    ← Finset.Ico_union_Ico_eq_Ico (Nat.zero_le a) (Nat.le_add_right a l),
    Finset.filter_union,
    Finset.card_union_of_disjoint (Finset.disjoint_filter_filter
      (Finset.Ico_disjoint_Ico_consecutive 0 a (a + l)))]

/-- Below a bound that the base table covers, the unmarked odd values of
`[3, M)` are exactly the odd primes there. -/
theorem oddUnmarked_basePrimes_eq (B M : Nat) (hM : M ≤ B) :
    oddUnmarked (basePrimes B) 3 M
      = (Finset.range M).filter (fun w => w % 2 = 1 ∧ w.Prime) := by
  ext w
  simp only [oddUnmarked, Finset.mem_filter, Finset.mem_range]
  constructor
  · rintro ⟨h1, h2, h3, h4⟩
    exact ⟨h1, h3, (basePrimes_spec B w h3 h2 (by omega)).mp h4⟩
  · rintro ⟨h1, h2, h3⟩
    have h4 : 3 ≤ w := by
      have := h3.two_le
      omega
    exact ⟨h1, h4, h2, (basePrimes_spec B w h2 h4 (by omega)).mpr h3⟩

theorem piCount_eq_one_add (M : Nat) (hM : 3 ≤ M) :
    piCount M
      = 1 + ((Finset.range M).filter (fun w => w % 2 = 1 ∧ w.Prime)).card := by
  unfold piCount
  have hsplit : (Finset.range M).filter Nat.Prime
      = insert 2 ((Finset.range M).filter (fun w => w % 2 = 1 ∧ w.Prime)) := by
    ext w
    simp only [Finset.mem_filter, Finset.mem_range, Finset.mem_insert]
    constructor
    · rintro ⟨h1, h2⟩
      rcases h2.eq_two_or_odd with h | h
      · exact Or.inl h
      · exact Or.inr ⟨h1, h, h2⟩
    · rintro (rfl | ⟨h1, h2, h3⟩)
      · exact ⟨by omega, Nat.prime_two⟩
      · exact ⟨h1, h3⟩
  rw [hsplit, Finset.card_insert_of_not_mem]
  · omega
  · simp only [Finset.mem_filter, Finset.mem_range, not_and]
    intro _ h
    omega

/-- With `B ≤ N`, the seeding scan counts exactly the primes below `B`. -/
theorem baseScan_piCount (B N : Nat) (hB : 16 ≤ B) (hN : B ≤ N) :
    (baseScan (basePrimes B) B N).1 = piCount B := by
  obtain ⟨hc, _⟩ := baseScan_spec (basePrimes B) B N
  have hmin : min B N = B := by omega
  rw [hc, hmin, oddUnmarked_basePrimes_eq B B (le_refl B),
    piCount_eq_one_add B (by omega)]

/-- With `N ≤ B` (the unsliced path), the seeding scan counts exactly the
primes below `N`. -/
theorem baseScan_piCount_unsliced (B N : Nat) (hB : 16 ≤ B) (hNB : N ≤ B)
    (hN10 : 10 ≤ N) :
    (baseScan (basePrimes B) B N).1 = piCount N := by
  obtain ⟨hc, _⟩ := baseScan_spec (basePrimes B) B N
  have hmin : min B N = N := by omega
  rw [hc, hmin, oddUnmarked_basePrimes_eq B N hNB,
    piCount_eq_one_add N (by omega)]

theorem runSlices_piCount (B S N : Nat) (hB16 : B % 16 = 0) (hB : 16 ≤ B)
    (hBS : B * S < N) (hNB : N ≤ B * (S + 1)) (hNB2 : N ≤ B * B) :
    ∀ (fuel i : Nat) (st : Nat × Nat), S + 1 ≤ i + fuel → 1 ≤ i → i ≤ S →
    st.1 = piCount (B * i) →
    (runSlices (basePrimes B) B S N i st).1 = piCount N := by
  have hdvd : (16 : Nat) ∣ B := Nat.dvd_of_mod_eq_zero hB16
  intro fuel
  induction fuel with
  | zero =>
    intro i st hf h1 hiS hst
    omega
  | succ n ih =>
    intro i st hf h1 hiS hst
    have hstep : ∀ len, len ≤ B →
        (prime_slice (basePrimes B) (B * i) len st.1 st.2).1
          = piCount (B * i + len) := by
      intro len hlen
      have hstart16 : B * i % 16 = 0 :=
        Nat.mod_eq_zero_of_dvd (hdvd.mul_right i)
      have hstart16' : 16 ≤ B * i := by nlinarith
      have halign : roundUp16 len ≤ B := roundUp16_le hB16 hlen
      have hBi : B * i ≤ B * S := Nat.mul_le_mul_left B hiS
      have hBB : B * S ≤ B * B → True := fun _ => trivial
      have hlimstart : ceilSqrt (B * i + roundUp16 len) ≤ B * i := by
        rw [ceilSqrt_le_iff]
        nlinarith
      have hlimB : ceilSqrt (B * i + roundUp16 len) ≤ B + 1 := by
        rw [ceilSqrt_le_iff]
        nlinarith
      obtain ⟨hcnt, _⟩ := sliceResult_spec (basePrimes B) B (B * i) len
        (basePrimes_spec B) (by omega) hstart16 hstart16' hlimstart hlimB
      rw [prime_slice_def, hst]
      show piCount (B * i) + (sliceResult (basePrimes B) (B * i) len).1 = _
      rw [hcnt, piCount_add]
    rw [runSlices, dif_pos hiS]
    by_cases hiS' : i = S
    · subst hiS'
      rw [if_pos rfl]
      rw [runSlices, dif_neg (by omega)]
      have hid : B * (i + 1) = B * i + B := by ring
      rw [hstep (N - B * i) (by omega)]
      have hN : B * i + (N - B * i) = N := by omega
      rw [hN]
    · rw [if_neg hiS']
      apply ih (i + 1) _ (by omega) (by omega) (by omega)
      rw [hstep B (le_refl B)]
      have hid : B * i + B = B * (i + 1) := by ring
      rw [hid]

/-- Total correctness of the sliced pipeline: base seed plus all slice
merges yield exactly π(N). -/
theorem runSliced_total (B N : Nat) (hB16 : B % 16 = 0) (hB : 16 ≤ B)
    (hBN : B < N) (hNB : N ≤ B * B) :
    (runSlices (basePrimes B) B (ceilDivNat (N - B) B) N 1
        (baseScan (basePrimes B) B N)).1 = piCount N := by
  set S := ceilDivNat (N - B) B with hS
  have hSdef : S = (N - 1) / B := by
    rw [hS]
    unfold ceilDivNat
    congr 1
    omega
  have hdm := Nat.div_add_mod (N - 1) B
  have hmod : (N - 1) % B < B := Nat.mod_lt _ (by omega)
  have hBS : B * S < N := by
    rw [hSdef]
    omega
  have hNB' : N ≤ B * (S + 1) := by
    have hid : B * (S + 1) = B * S + B := by ring
    rw [hSdef] at hid ⊢
    omega
  have hS1 : 1 ≤ S := by
    rw [hSdef]
    by_contra hS0
    push_neg at hS0
    have : (N - 1) / B = 0 := by omega
    rw [this] at hdm
    omega
  apply runSlices_piCount B S N hB16 hB hBS hNB' hNB (S + 1) 1 _ (by omega)
    (le_refl 1) hS1
  have h1 : B * 1 = B := by ring
  rw [h1]
  exact baseScan_piCount B N hB (by omega)

/-- Total correctness of the unsliced single-pass path. -/
theorem runUnsliced_total (N : Nat) (hN : 10 ≤ N) :
    (baseScan (basePrimes (roundUp16 N)) (roundUp16 N) N).1 = piCount N := by
  obtain ⟨hle, hlt, hmod⟩ := roundUp16_spec N
  exact baseScan_piCount_unsliced (roundUp16 N) N (by omega) hle hN

/-! ## Auxiliary facts about the driver and plan -/

/-- `main` with an argument, written out by cases on the plan. -/
theorem runMain_eq (N : Nat) (w : Int) :
    runMain true N w =
      match slicePlan N with
      | .rangeError => .rangeError
      | .smallError => .smallError
      | .plan B S =>
        if w < 0 ∨ w > 100 then .workersError
        else if S = 0 then
          .done (baseScan (basePrimes B) B N).1
            (baseScan (basePrimes B) B N).2
        else
          .done
            (runSlices (basePrimes B) B S N 1
              (baseScan (basePrimes B) B N)).1
            (runSlices (basePrimes B) B S N 1
              (baseScan (basePrimes B) B N)).2 := rfl

/-- The plan selection partitions the inputs into the documented bands. -/
theorem slicePlan_cases (N : Nat) :
    (10 ≤ N ∧ N ≤ 10 ^ 15 ∧ ∃ B S, slicePlan N = .plan B S) ∨
    (N < 10 ∧ slicePlan N = .smallError) ∨
    (10 ^ 15 < N ∧ slicePlan N = .rangeError) := by
  have hpow : (10 : Nat) ^ 15 = 1000000000000000 := by norm_num
  unfold slicePlan
  split_ifs with h1 h2 h3 h4
  · right; right
    exact ⟨by omega, rfl⟩
  · left
    exact ⟨by omega, by omega, _, _, rfl⟩
  · left
    exact ⟨by omega, by omega, _, _, rfl⟩
  · left
    exact ⟨by omega, by omega, _, _, rfl⟩
  · right; left
    exact ⟨by omega, rfl⟩

/-- `ceilDivNat a b` is the ceiling of `a / b`: the least `k` with
`a ≤ b * k`. -/
theorem ceilDivNat_spec (a b : Nat) (hb : 0 < b) :
    a ≤ b * ceilDivNat a b ∧ ∀ k, a ≤ b * k → ceilDivNat a b ≤ k := by
  unfold ceilDivNat
  set q := (a + b - 1) / b with hq
  set e := (a + b - 1) % b with he
  have hdm : b * q + e = a + b - 1 := Nat.div_add_mod _ _
  have helt : e < b := Nat.mod_lt _ hb
  constructor
  · omega
  · intro k hk
    by_contra hcon
    push_neg at hcon
    have h1 : k + 1 ≤ q := by omega
    have h2 : b * (k + 1) ≤ b * q := Nat.mul_le_mul_left b h1
    have h3 : b * (k + 1) = b * k + b := by ring
    omega

/-- A slice job over a window of a single value scans nothing: its count
and its local `last_prime` are both 0. -/
theorem sliceResult_len_one (base : Nat → Nat) (start : Nat) :
    sliceResult base start 1 = (0, 0) := by
  have hfold : sliceResult base start 1
      = sliceScanLoop (sliceFactorLoop base (fun _ => 0) start
          (roundUp16 1) (ceilSqrt (start + roundUp16 1)) 3) start 1 1 0 0 :=
    rfl
  rw [hfold, sliceScanLoop, dif_neg (by omega)]

/-- A slice job over a window of a single value finds nothing and writes
a zero `last_prime` into the shared state. -/
theorem prime_slice_empty_last (base : Nat → Nat) (start total last : Nat) :
    (prime_slice base start 1 total last).2 = 0 := by
  rw [prime_slice_def, sliceResult_len_one]

/-- The counting scan reads the buffer only at odd offsets below `len`. -/
theorem sliceScanLoop_frame (mem mem2 : Nat → Nat) (start len : Nat) :
    ∀ t count last,
    (∀ w, w < len → w % 2 = 1 → testHit mem w = testHit mem2 w) →
    t % 2 = 1 →
    sliceScanLoop mem start len t count last
      = sliceScanLoop mem2 start len t count last := by
  intro t count last
  induction t, count, last using sliceScanLoop.induct mem start len with
  | case1 t count last h hm ih =>
    intro hagree ht
    have hm2 : testHit mem2 t = true := by
      rw [← hagree t h ht]
      exact hm
    rw [sliceScanLoop, dif_pos h, if_pos hm]
    conv_rhs => rw [sliceScanLoop]
    rw [dif_pos h, if_pos hm2]
    exact ih hagree (by omega)
  | case2 t count last h hm ih =>
    intro hagree ht
    have hm2 : ¬ testHit mem2 t = true := by
      rw [← hagree t h ht]
      exact hm
    rw [sliceScanLoop, dif_pos h, if_neg hm]
    conv_rhs => rw [sliceScanLoop]
    rw [dif_pos h, if_neg hm2]
    exact ih hagree (by omega)
  | case3 t count last h =>
    intro hagree ht
    rw [sliceScanLoop, dif_neg h]
    conv_rhs => rw [sliceScanLoop]
    rw [dif_neg h]

/-! ## The claims -/

/-- C3: for every input N the plan selects the base bound and slice count
exactly by the documented bands: N > 10^15 rejected; for
10^12 < N ≤ 10^15, B = ceil(sqrt N) rounded up to the next multiple of 16
and S = ceil((N−B)/B); for 2^20 < N ≤ 10^12, B = 2^20 and
S = ceil((N−B)/B); for 10 ≤ N ≤ 2^20, B = N rounded up to the next
multiple of 16 and S = 0; N < 10 rejected.  The helper operations are
exact: `ceilSqrt N` is the least k with N ≤ k², `roundUp16` rounds up to
the next multiple of 16, `ceilDivNat a b` is the least k with a ≤ b·k. -/
theorem claim_C3 (N : Nat) :
    (10 ^ 15 < N → slicePlan N = .rangeError) ∧
    (10 ^ 12 < N → N ≤ 10 ^ 15 →
      slicePlan N
        = .plan (roundUp16 (ceilSqrt N))
            (ceilDivNat (N - roundUp16 (ceilSqrt N))
              (roundUp16 (ceilSqrt N)))) ∧
    (2 ^ 20 < N → N ≤ 10 ^ 12 →
      slicePlan N = .plan (2 ^ 20) (ceilDivNat (N - 2 ^ 20) (2 ^ 20))) ∧
    (10 ≤ N → N ≤ 2 ^ 20 → slicePlan N = .plan (roundUp16 N) 0) ∧
    (N < 10 → slicePlan N = .smallError) ∧
    (N ≤ ceilSqrt N * ceilSqrt N ∧ ∀ k, N ≤ k * k → ceilSqrt N ≤ k) ∧
    (∀ n, n ≤ roundUp16 n ∧ roundUp16 n < n + 16 ∧ roundUp16 n % 16 = 0) ∧
    (∀ a b, 0 < b →
      a ≤ b * ceilDivNat a b ∧ ∀ k, a ≤ b * k → ceilDivNat a b ≤ k) := by
  have e12 : (10 : Nat) ^ 12 = 1000000000000 := by norm_num
  have e15 : (10 : Nat) ^ 15 = 1000000000000000 := by norm_num
  have e20 : (2 : Nat) ^ 20 = 1048576 := by norm_num
  refine ⟨?_, ?_, ?_, ?_, ?_,
    ⟨ceilSqrt_sq_ge N, fun k hk => (ceilSqrt_le_iff N k).mpr hk⟩,
    roundUp16_spec, fun a b hb => ceilDivNat_spec a b hb⟩
  · intro h
    unfold slicePlan
    rw [if_pos (by omega)]
  · intro h1 h2
    unfold slicePlan
    rw [if_neg (by omega), if_pos (by omega)]
  · intro h1 h2
    unfold slicePlan
    rw [if_neg (by omega), if_neg (by omega), if_pos (by omega), e20]
  · intro h1 h2
    unfold slicePlan
    rw [if_neg (by omega), if_neg (by omega), if_neg (by omega),
      if_pos (by omega)]
  · intro h
    unfold slicePlan
    rw [if_neg (by omega), if_neg (by omega), if_neg (by omega),
      if_neg (by omega)]

theorem claim_C3_witness :
    slicePlan 9 = .smallError ∧
    slicePlan (10 ^ 15 + 1) = .rangeError ∧
    slicePlan 1048577 = .plan (2 ^ 20) (ceilDivNat (1048577 - 2 ^ 20) (2 ^ 20)) ∧
    slicePlan 100 = .plan (roundUp16 100) 0 :=
  ⟨(claim_C3 9).2.2.2.2.1 (by norm_num),
    (claim_C3 (10 ^ 15 + 1)).1 (by norm_num),
    (claim_C3 1048577).2.2.1 (by norm_num) (by norm_num),
    (claim_C3 100).2.2.2.1 (by norm_num) (by norm_num)⟩

/-- C9: marking the odd value v sets the bit at (byte v/16, bit v/2 mod 8);
the subsequent test of v reads "composite", the test of every other odd
value is unchanged, and distinct odd values occupy distinct (byte, bit)
positions — in particular v−2 and v+2 are unaffected. -/
theorem claim_C9 (mem : Nat → Nat) (v : Nat) (hv : v % 2 = 1) :
    testHit (markStep mem v) v = true ∧
    (∀ w, w % 2 = 1 → w ≠ v →
      testHit (markStep mem v) w = testHit mem w ∧
      (w / 16, w / 2 % 8) ≠ (v / 16, v / 2 % 8)) ∧
    testHit (markStep mem v) (v + 2) = testHit mem (v + 2) ∧
    (3 ≤ v → testHit (markStep mem v) (v - 2) = testHit mem (v - 2)) := by
  have hself : testHit (markStep mem v) v = true := by
    rw [testHit_markStep]
    simp
  refine ⟨hself, ?_, ?_, ?_⟩
  · intro w hw hne
    constructor
    · rw [testHit_markStep]
      have hd : ¬ (w / 2 = v / 2) := fun h => hne (odd_half_inj hw hv h)
      simp [hd]
    · intro hpair
      have h1 : w / 16 = v / 16 := congrArg Prod.fst hpair
      have h2 : w / 2 % 8 = v / 2 % 8 := congrArg Prod.snd hpair
      exact hne (odd_half_inj hw hv (by omega))
  · rw [testHit_markStep]
    have hd : ¬ ((v + 2) / 2 = v / 2) := by omega
    simp [hd]
  · intro h3
    rw [testHit_markStep]
    have hd : ¬ ((v - 2) / 2 = v / 2) := by omega
    simp [hd]

theorem claim_C9_witness :
    testHit (markStep (fun _ => 0) 5) 5 = true ∧
    testHit (markStep (fun _ => 0) 5) 7 = testHit (fun _ => 0) 7 ∧
    ((7 : Nat) / 16, (7 : Nat) / 2 % 8) ≠ ((5 : Nat) / 16, (5 : Nat) / 2 % 8) ∧
    testHit (markStep (fun _ => 0) 5) 3 = testHit (fun _ => 0) 3 := by
  obtain ⟨h1, h2, h3, h4⟩ := claim_C9 (fun _ => 0) 5 (by decide)
  exact ⟨h1, (h2 7 (by decide) (by decide)).1, (h2 7 (by decide) (by decide)).2,
    h4 (by decide)⟩

/-- C4: after the base-sieve build over [0, B), an odd value in [3, B) is
unmarked exactly when it is prime; the seeding scan sets the count to 1
plus the number of unmarked odd values in [3, min(B, N)), and the last
prime to the largest such unmarked odd value. -/
theorem claim_C4 (B N : Nat) (hB : 16 ≤ B) (hN : 10 ≤ N) :
    (∀ v, v < B → v % 2 = 1 → 3 ≤ v →
      (testHit (basePrimes B) v = false ↔ v.Prime)) ∧
    (baseScan (basePrimes B) B N).1
      = 1 + (oddUnmarked (basePrimes B) 3 (min B N)).card ∧
    (baseScan (basePrimes B) B N).2 ∈ oddUnmarked (basePrimes B) 3 (min B N) ∧
    (∀ x ∈ oddUnmarked (basePrimes B) 3 (min B N),
      x ≤ (baseScan (basePrimes B) B N).2) := by
  obtain ⟨hc, hl⟩ := baseScan_spec (basePrimes B) B N
  have h3mem : (3 : Nat) ∈ oddUnmarked (basePrimes B) 3 (min B N) :=
    Finset.mem_filter.mpr ⟨Finset.mem_range.mpr
      (lt_min (show (3:Nat) < B by omega) (show (3:Nat) < N by omega)),
      le_refl 3, by omega,
      (basePrimes_spec B 3 (by omega) (by omega) (by omega)).mpr
        Nat.prime_three⟩
  refine ⟨fun v hvB hv h3 => basePrimes_spec B v hv h3 hvB, hc, ?_, ?_⟩
  · rcases hl with ⟨hemp, _⟩ | ⟨m, hmem, hlast, _⟩
    · rw [hemp] at h3mem
      exact absurd h3mem (Finset.not_mem_empty 3)
    · rw [hlast]
      exact hmem
  · rcases hl with ⟨hemp, _⟩ | ⟨m, hmem, hlast, hmax⟩
    · rw [hemp] at h3mem
      exact absurd h3mem (Finset.not_mem_empty 3)
    · intro x hx
      rw [hlast]
      exact hmax x hx

theorem claim_C4_witness :
    (testHit (basePrimes 16) 9 = false ↔ Nat.Prime 9) ∧
    (baseScan (basePrimes 16) 16 10).1
      = 1 + (oddUnmarked (basePrimes 16) 3 (min 16 10)).card ∧
    (baseScan (basePrimes 16) 16 10).2
      ∈ oddUnmarked (basePrimes 16) 3 (min 16 10) :=
  ⟨(claim_C4 16 10 (by norm_num) (by norm_num)).1 9 (by norm_num)
      (by norm_num) (by norm_num),
    (claim_C4 16 10 (by norm_num) (by norm_num)).2.1,
    (claim_C4 16 10 (by norm_num) (by norm_num)).2.2.1⟩

/-- The inner marking loop of the slice sieve, run from the computed
starting offset over a zeroed buffer, marks exactly the offsets of odd
multiples of `t` inside the aligned window. -/
theorem markRun_multiples (start t alignedLen : Nat) (hstart : start % 2 = 0)
    (ht : t % 2 = 1) (ht1 : 0 < t) :
    ∀ w, w % 2 = 1 → w < alignedLen →
      (testHit (markRun (fun _ => 0) alignedLen (t * 2)
          (sliceStartOffset start t)) w = true ↔
        ∃ m, start + w = (2 * m + 1) * t) := by
  intro w hw hwa
  obtain ⟨hge, hlt2, ⟨q0, hq0⟩, hmin⟩ := sliceStartOffset_spec start t ht1
  rw [testHit_markRun _ _ _ _ _ (by omega), testHit_zero]
  constructor
  · rintro (hfalse | ⟨k, hk1, hk2⟩)
    · exact Bool.noConfusion hfalse
    · have hxodd : (sliceStartOffset start t + t * 2 * k) % 2 = 1 := by
        have h2 : (2 * q0 + 1) * t % 2 = 1 := Nat.odd_mul_odd (by omega) ht
        have h3 : t * 2 * k = 2 * (t * k) := by ring
        omega
      have hwx : w = sliceStartOffset start t + t * 2 * k :=
        (odd_half_inj hxodd hw hk2).symm
      refine ⟨q0 + k, ?_⟩
      have h4 : (2 * (q0 + k) + 1) * t = (2 * q0 + 1) * t + t * 2 * k := by
        ring
      omega
  · rintro ⟨m, hm⟩
    have hmge : start + sliceStartOffset start t ≤ (2 * m + 1) * t :=
      hmin m (by omega)
    have hqm : q0 ≤ m := by
      by_contra hq'
      push_neg at hq'
      have h1 : 2 * m + 1 + 1 ≤ 2 * q0 + 1 := by omega
      have h2 := Nat.mul_le_mul_right t h1
      have h3 : (2 * m + 1 + 1) * t = (2 * m + 1) * t + t := by ring
      omega
    obtain ⟨d, rfl⟩ : ∃ d, m = q0 + d := ⟨m - q0, by omega⟩
    refine Or.inr ⟨d, ?_, ?_⟩
    · have h4 : (2 * (q0 + d) + 1) * t = (2 * q0 + 1) * t + t * 2 * d := by
        ring
      omega
    · have h4 : (2 * (q0 + d) + 1) * t = (2 * q0 + 1) * t + t * 2 * d := by
        ring
      omega

/-- C5: for a 16-aligned window start and odd factor 3 ≤ t below the factor
limit, the starting-offset expression of line 223 yields the offset of the
smallest odd multiple of t that is ≥ start (an exact value in [0, 2t)); the
inner loop then marks exactly the odd multiples of t inside the aligned
window; and for N ≤ 10^15 (so window starts ≤ 10^15 and aligned lengths at
most the base size 31622784) no intermediate exceeds its declared type:
`tprime`/`cprime`/`slice_count` stay below 2^31 (`int`) and the 64-bit
offset computation stays below 2^64 (`uint64_t`). -/
theorem claim_C5 (start alignedLen t : Nat) (hstart : start % 16 = 0)
    (ht : t % 2 = 1) (ht3 : 3 ≤ t)
    (hlim : t < ceilSqrt (start + alignedLen))
    (hrange : start + alignedLen ≤ 10 ^ 15 + 31622784)
    (halign : alignedLen ≤ 31622784) :
    (∃ m, start + sliceStartOffset start t = (2 * m + 1) * t) ∧
    sliceStartOffset start t < 2 * t ∧
    (∀ m, start ≤ (2 * m + 1) * t →
      start + sliceStartOffset start t ≤ (2 * m + 1) * t) ∧
    (∀ w, w % 2 = 1 → w < alignedLen →
      (testHit (markRun (fun _ => 0) alignedLen (t * 2)
          (sliceStartOffset start t)) w = true ↔
        ∃ m, start + w = (2 * m + 1) * t)) ∧
    t < 2 ^ 25 ∧ t * 2 < 2 ^ 31 ∧ sliceStartOffset start t < 2 ^ 31 ∧
    (∀ w, w < alignedLen → w + t * 2 < 2 ^ 31) ∧
    start + t - 1 < 2 ^ 64 ∧
    ((start + t - 1) / (t * 2) * 2 + 1) * t < 2 ^ 64 := by
  have e15 : (10 : Nat) ^ 15 = 1000000000000000 := by norm_num
  have e25 : (2 : Nat) ^ 25 = 33554432 := by norm_num
  have e31 : (2 : Nat) ^ 31 = 2147483648 := by norm_num
  have e64 : (2 : Nat) ^ 64 = 18446744073709551616 := by norm_num
  obtain ⟨hge, hlt2, hex, hmin⟩ := sliceStartOffset_spec start t (by omega)
  have ht25 : t < 2 ^ 25 := by
    by_contra hge25
    push_neg at hge25
    have h1 : 2 ^ 25 * 2 ^ 25 ≤ t * t := Nat.mul_le_mul hge25 hge25
    have h2 : t * t < start + alignedLen := (lt_ceilSqrt_iff _ _).mp hlim
    norm_num at h1
    omega
  have hdef : sliceStartOffset start t
      = ((start + t - 1) / (t * 2) * 2 + 1) * t - start := rfl
  refine ⟨hex, hlt2, hmin,
    markRun_multiples start t alignedLen (by omega) ht (by omega),
    ht25, by omega, by omega, ?_, by omega, by omega⟩
  intro w hwa
  omega

theorem claim_C5_witness :
    (∃ m, 16 + sliceStartOffset 16 3 = (2 * m + 1) * 3) ∧
    sliceStartOffset 16 3 < 2 * 3 ∧
    (testHit (markRun (fun _ => 0) 16 (3 * 2) (sliceStartOffset 16 3)) 5
        = true ↔ ∃ m, 16 + 5 = (2 * m + 1) * 3) ∧
    3 * 2 < 2 ^ 31 :=
  have h := claim_C5 16 16 3 (by norm_num) (by norm_num) (by norm_num)
    ((lt_ceilSqrt_iff _ _).mpr (by norm_num)) (by norm_num) (by norm_num)
  ⟨h.1, h.2.1, h.2.2.2.1 5 (by norm_num) (by norm_num), h.2.2.2.2.2.1⟩

/-- C6: the counting scan of `prime_slice` examines only odd offsets below
`len` — two buffers that agree there produce identical scan results, so the
sieved alignment padding is never counted — and it returns the number of
unmarked odd offsets of the window together with the largest unmarked value
`start + offset` (0 when the window has none). -/
theorem claim_C6 (mem mem2 : Nat → Nat) (start len : Nat) :
    ((∀ w, w < len → w % 2 = 1 → testHit mem w = testHit mem2 w) →
      sliceScanLoop mem start len 1 0 0
        = sliceScanLoop mem2 start len 1 0 0) ∧
    (sliceScanLoop mem start len 1 0 0).1 = (oddUnmarked mem 1 len).card ∧
    ((oddUnmarked mem 1 len = ∅ ∧
        (sliceScanLoop mem start len 1 0 0).2 = 0) ∨
      (∃ m ∈ oddUnmarked mem 1 len,
        (sliceScanLoop mem start len 1 0 0).2 = start + m ∧
        ∀ x ∈ oddUnmarked mem 1 len, x ≤ m)) := by
  obtain ⟨hc, hl⟩ := sliceScanLoop_spec mem start len 1 0 0 (by omega)
  refine ⟨fun hagree =>
    sliceScanLoop_frame mem mem2 start len 1 0 0 hagree (by omega),
    ?_, hl⟩
  rw [hc, Nat.zero_add]

theorem claim_C6_witness :
    sliceScanLoop (fun _ => 0) 16 16 1 0 0
      = sliceScanLoop (markStep (fun _ => 0) 17) 16 16 1 0 0 ∧
    (sliceScanLoop (fun _ => 0) 16 16 1 0 0).1
      = (oddUnmarked (fun _ => 0) 1 16).card :=
  ⟨(claim_C6 (fun _ => 0) (markStep (fun _ => 0) 17) 16 16).1 (by decide),
    (claim_C6 (fun _ => 0) (markStep (fun _ => 0) 17) 16 16).2.1⟩

/-- C2, counterexample: merging a primeless slice (window [16, 17) holds
only the even value 16; prior counters (7, 5)) leaves totalPrimes at 7 but
OVERWRITES lastPrime with the slice's local 0 — not max(5, 0) = 5 as the
claim states.  The same overwrite occurs in every real run whose final
slice is primeless (see `claim_C1_bug`). -/
theorem claim_C2_counterexample :
    (prime_slice (fun _ => 0) 16 1 7 5).1 = 7 ∧
    (prime_slice (fun _ => 0) 16 1 7 5).2 = 0 ∧
    (prime_slice (fun _ => 0) 16 1 7 5).2 ≠ max 5 0 := by
  rw [prime_slice_def, sliceResult_len_one]
  refine ⟨rfl, rfl, by decide⟩

/-- C2, amended: every slice merge adds the slice's count of unmarked odd
values to totalPrimes, but OVERWRITES lastPrime with the slice's foundMax
(0 for a primeless slice); the claimed `lastPrime = max(prior, foundMax)`
holds exactly when foundMax is at least the prior value. -/
theorem claim_C2_amended (base : Nat → Nat) (start len total last : Nat) :
    prime_slice base start len total last
      = (total + (sliceResult base start len).1,
          (sliceResult base start len).2) ∧
    ((prime_slice base start len total last).2
        = max last (sliceResult base start len).2 ↔
      last ≤ (sliceResult base start len).2) := by
  constructor
  · exact prime_slice_def base start len total last
  · rw [prime_slice_def]
    show (sliceResult base start len).2
        = max last (sliceResult base start len).2 ↔ _
    rw [eq_comm]
    exact max_eq_right_iff

/-- C7: π(N) computed by the sliced path (base sieve over [0, B) seeded
into the counters, then ceil((N−B)/B) slice jobs merged in order) equals
π(N) computed by the unsliced single-pass path (one sieve over
[0, roundUp16 N) scanned up to N), whenever B is 16-aligned with
16 ≤ B < N ≤ B² — which covers both sliced plan bands, in particular the
first N above the 2^20 threshold against its unsliced neighbours.  Both
equal the true prime count π(N). -/
theorem claim_C7 (N B : Nat) (hB16 : B % 16 = 0) (hB : 16 ≤ B)
    (hBN : B < N) (hNB : N ≤ B * B) :
    (runSlices (basePrimes B) B (ceilDivNat (N - B) B) N 1
        (baseScan (basePrimes B) B N)).1
      = (baseScan (basePrimes (roundUp16 N)) (roundUp16 N) N).1 ∧
    (runSlices (basePrimes B) B (ceilDivNat (N - B) B) N 1
        (baseScan (basePrimes B) B N)).1 = piCount N := by
  have h1 := runSliced_total B N hB16 hB hBN hNB
  have h2 := runUnsliced_total N (by omega)
  exact ⟨by rw [h1, h2], h1⟩

theorem claim_C7_witness :
    (runSlices (basePrimes 1048576) 1048576
        (ceilDivNat (1048577 - 1048576) 1048576) 1048577 1
        (baseScan (basePrimes 1048576) 1048576 1048577)).1
      = (baseScan (basePrimes (roundUp16 1048577))
          (roundUp16 1048577) 1048577).1 :=
  (claim_C7 1048577 1048576 (by norm_num) (by norm_num) (by norm_num)
    (by norm_num)).1

/-- C1 (code bug): for the valid input N = 1048577 (just above 2^20) the
program computes totalPrimes = π(N) but reports lastPrime = 0: the final
slice [1048576, 1048577) holds only an even value, its local `last_prime`
stays 0, and the merge (line 243) overwrites the shared `last_prime` with
it.  The greatest prime below N is 1048573; 0 is not prime at all. -/
theorem claim_C1_bug :
    runMain true 1048577 4 = .done (piCount 1048577) 0 ∧
    ¬ Nat.Prime 0 ∧ Nat.Prime 1048573 ∧
    (∀ p, Nat.Prime p → p < 1048577 → p ≤ 1048573) := by
  have hplan : slicePlan 1048577 = .plan 1048576 1 := by decide
  have hS : ceilDivNat (1048577 - 1048576) 1048576 = 1 := by decide
  have hlast : ∀ st : Nat × Nat,
      (runSlices (basePrimes 1048576) 1048576 1 1048577 1 st).2 = 0 := by
    intro st
    rw [runSlices, dif_pos (by norm_num)]
    rw [runSlices, dif_neg (by norm_num)]
    rw [if_pos rfl]
    have h1 : 1048577 - 1048576 * 1 = 1 := by norm_num
    rw [h1]
    exact prime_slice_empty_last _ _ _ _
  have hcount : (runSlices (basePrimes 1048576) 1048576 1 1048577 1
      (baseScan (basePrimes 1048576) 1048576 1048577)).1
      = piCount 1048577 := by
    have h := runSliced_total 1048576 1048577 (by norm_num) (by norm_num)
      (by norm_num) (by norm_num)
    rwa [hS] at h
  refine ⟨?_, by norm_num, by norm_num, ?_⟩
  · rw [runMain_eq]
    simp only [hplan]
    rw [if_neg (by norm_num), if_neg (by norm_num)]
    rw [hcount, hlast]
  · intro p hp hlt
    by_contra hgt
    push_neg at hgt
    interval_cases p
    · exact absurd hp (by norm_num)
    · exact absurd hp (by norm_num)
    · exact absurd hp (by norm_num)

/-- C8: exactly the inputs 10 ≤ N ≤ 10^15 with 0 ≤ workers ≤ 100 are
accepted; every rejection yields an error outcome with exit code 1 (the
error is produced before any sieve state exists, mirroring the early
returns of lines 65–104); no arguments prints help with exit code 0; the
boundary inputs N = 10, 10^15, 9, 10^15 + 1 behave as documented. -/
theorem claim_C8 (N : Nat) (w : Int) :
    ((∃ T L, runMain true N w = .done T L) ↔
      (10 ≤ N ∧ N ≤ 10 ^ 15 ∧ 0 ≤ w ∧ w ≤ 100)) ∧
    (¬ (10 ≤ N ∧ N ≤ 10 ^ 15 ∧ 0 ≤ w ∧ w ≤ 100) →
      exitCode (runMain true N w) = 1) ∧
    runMain false N w = .helpText ∧
    exitCode (runMain false N w) = 0 ∧
    (∃ B S, slicePlan 10 = .plan B S) ∧
    (∃ B S, slicePlan (10 ^ 15) = .plan B S) ∧
    runMain true 9 w = .smallError ∧
    runMain true (10 ^ 15 + 1) w = .rangeError := by
  have e15 : (10 : Nat) ^ 15 = 1000000000000000 := by norm_num
  have hmain : (∃ T L, runMain true N w = .done T L) ↔
      (10 ≤ N ∧ N ≤ 10 ^ 15 ∧ 0 ≤ w ∧ w ≤ 100) := by
    rcases slicePlan_cases N with ⟨hN1, hN2, B, S, hplan⟩ | ⟨hN, hplan⟩ |
      ⟨hN, hplan⟩
    · constructor
      · rintro ⟨T, L, hTL⟩
        have hgood : ¬ (w < 0 ∨ w > 100) := by
          intro hbad
          rw [runMain_eq] at hTL
          simp only [hplan] at hTL
          rw [if_pos hbad] at hTL
          exact RunResult.noConfusion hTL
        exact ⟨hN1, hN2, by omega, by omega⟩
      · rintro ⟨_, _, hw0, hw100⟩
        rw [runMain_eq]
        simp only [hplan]
        rw [if_neg (by omega)]
        by_cases hS : S = 0
        · rw [if_pos hS]
          exact ⟨_, _, rfl⟩
        · rw [if_neg hS]
          exact ⟨_, _, rfl⟩
    · constructor
      · rintro ⟨T, L, hTL⟩
        rw [runMain_eq] at hTL
        simp only [hplan] at hTL
        exact absurd hTL RunResult.noConfusion
      · rintro ⟨h10, _⟩
        omega
    · constructor
      · rintro ⟨T, L, hTL⟩
        rw [runMain_eq] at hTL
        simp only [hplan] at hTL
        exact absurd hTL RunResult.noConfusion
      · rintro ⟨_, h15, _⟩
        omega
  have hexit : ¬ (10 ≤ N ∧ N ≤ 10 ^ 15 ∧ 0 ≤ w ∧ w ≤ 100) →
      exitCode (runMain true N w) = 1 := by
    intro hbad
    rcases slicePlan_cases N with ⟨hN1, hN2, B, S, hplan⟩ | ⟨hN, hplan⟩ |
      ⟨hN, hplan⟩
    · have hw : w < 0 ∨ w > 100 := by
        by_contra hw'
        push_neg at hw'
        exact hbad ⟨hN1, hN2, by omega, by omega⟩
      rw [runMain_eq]
      simp only [hplan]
      rw [if_pos hw]
      rfl
    · rw [runMain_eq]
      simp only [hplan]
      rfl
    · rw [runMain_eq]
      simp only [hplan]
      rfl
  have haccept10 : ∃ B S, slicePlan 10 = .plan B S := ⟨16, 0, by decide⟩
  have haccept15 : ∃ B S, slicePlan (10 ^ 15) = .plan B S := by
    rcases slicePlan_cases (10 ^ 15) with ⟨_, _, hex⟩ | ⟨h, _⟩ | ⟨h, _⟩
    · exact hex
    · norm_num at h
    · norm_num at h
  have hplan9 : slicePlan 9 = .smallError := by decide
  have hsmall : runMain true 9 w = .smallError := by
    rw [runMain_eq]
    simp only [hplan9]
  have hrange : runMain true (10 ^ 15 + 1) w = .rangeError := by
    have e : (10 : Nat) ^ 15 + 1 = 1000000000000001 := by norm_num
    have hplanBig : slicePlan 1000000000000001 = .rangeError := by decide
    rw [e, runMain_eq]
    simp only [hplanBig]
  exact ⟨hmain, hexit, rfl, rfl, haccept10, haccept15, hsmall, hrange⟩

theorem claim_C8_witness :
    (∃ T L, runMain true 10 4 = .done T L) ∧
    runMain true 9 4 = .smallError ∧
    runMain false 10 4 = .helpText :=
  ⟨((claim_C8 10 4).1).mpr (by norm_num),
    (claim_C8 10 4).2.2.2.2.2.2.1,
    (claim_C8 10 4).2.2.1⟩

/-- C10: with B and S as the driver computes them for a sliced run, the
slice windows tile [B, N) exactly: slices 1 ≤ i < S carry B values from
B·i and slice S carries the 0 < N − B·S ≤ B leftover values from B·S, so
together with the base scan over [3, min(B, N)) = [3, B), every odd value
in [3, N) lies in the range of exactly one counting scan. -/
theorem claim_C10 (N B S : Nat) (hB16 : B % 16 = 0) (hB : 16 ≤ B)
    (hBN : B < N) (hS : S = ceilDivNat (N - B) B) :
    1 ≤ S ∧ B * S < N ∧ 0 < N - B * S ∧ N - B * S ≤ B ∧ min B N = B ∧
    (∀ v, 3 ≤ v → v < N → v % 2 = 1 →
      (v < min B N ∧ ∀ i, 1 ≤ i → i ≤ S →
        ¬ (B * i ≤ v ∧ v < B * i + (if i = S then N - B * S else B))) ∨
      (¬ (v < min B N) ∧ ∃! i, 1 ≤ i ∧ i ≤ S ∧ B * i ≤ v ∧
        v < B * i + (if i = S then N - B * S else B))) := by
  have hSdef : S = (N - 1) / B := by
    rw [hS]
    unfold ceilDivNat
    congr 1
    omega
  have hdm := Nat.div_add_mod (N - 1) B
  have hmod : (N - 1) % B < B := Nat.mod_lt _ (by omega)
  have hBS : B * S < N := by
    rw [hSdef]
    omega
  have hNB' : N ≤ B * (S + 1) := by
    have hid : B * (S + 1) = B * S + B := by ring
    rw [hSdef] at hid ⊢
    omega
  have hS1 : 1 ≤ S := by
    rw [hSdef]
    by_contra hS0
    push_neg at hS0
    have h0 : (N - 1) / B = 0 := by omega
    rw [h0] at hdm
    omega
  have hmin : min B N = B := by omega
  have hdisj : ∀ v i j, i < j → j ≤ S →
      (B * i ≤ v ∧ v < B * i + (if i = S then N - B * S else B)) →
      B * j ≤ v → False := by
    intro v i j hij hjS hiw hja
    obtain ⟨hia, hib⟩ := hiw
    have h2 : B * (i + 1) ≤ B * j := Nat.mul_le_mul_left B hij
    have h3 : B * (i + 1) = B * i + B := by ring
    have hlen : (if i = S then N - B * S else B) ≤ B := by
      split_ifs
      · omega
      · exact le_refl B
    omega
  have hid2 : B * (S + 1) = B * S + B := by ring
  refine ⟨hS1, hBS, by omega, by omega, hmin, ?_⟩
  intro v h3v hvN hvodd
  by_cases hvB : v < B
  · left
    rw [hmin]
    refine ⟨hvB, ?_⟩
    intro i hi1 hiS hiw
    have h1 : B * 1 ≤ B * i := Nat.mul_le_mul_left B hi1
    have h2 : B * 1 = B := by ring
    omega
  · right
    rw [hmin]
    refine ⟨hvB, ?_⟩
    have huniq : ∀ i j,
        (1 ≤ i ∧ i ≤ S ∧ B * i ≤ v ∧
          v < B * i + (if i = S then N - B * S else B)) →
        (1 ≤ j ∧ j ≤ S ∧ B * j ≤ v ∧
          v < B * j + (if j = S then N - B * S else B)) → i = j := by
      intro i j ⟨hi1, hiS, hia, hib⟩ ⟨hj1, hjS, hja, hjb⟩
      by_contra hne
      rcases Nat.lt_or_ge i j with hij | hij
      · exact hdisj v i j hij hjS ⟨hia, hib⟩ hja
      · exact hdisj v j i (by omega) hiS ⟨hja, hjb⟩ hia
    by_cases hvS : v < B * S
    · -- v lies in a full slice: its index is v / B
      obtain ⟨q, hq⟩ : ∃ q, q = v / B := ⟨v / B, rfl⟩
      have hdq : B * q + v % B = v := by
        rw [hq]
        exact Nat.div_add_mod v B
      have hmq : v % B < B := Nat.mod_lt _ (by omega)
      have hq1 : 1 ≤ q := by
        by_contra hq0
        push_neg at hq0
        have h0 : q = 0 := by omega
        rw [h0, Nat.mul_zero] at hdq
        omega
      have hqS : q < S := by
        by_contra hqS'
        push_neg at hqS'
        have h2 : B * S ≤ B * q := Nat.mul_le_mul_left B hqS'
        omega
      refine ⟨q, ⟨hq1, by omega, by omega, ?_⟩, ?_⟩
      · rw [if_neg (by omega)]
        omega
      · intro j hj
        exact (huniq j q hj ⟨hq1, by omega, by omega, by
          rw [if_neg (by omega)]; omega⟩)
    · -- v lies in the final, possibly short slice
      refine ⟨S, ⟨hS1, le_refl S, by omega, ?_⟩, ?_⟩
      · rw [if_pos rfl]
        omega
      · intro j hj
        exact (huniq j S hj ⟨hS1, le_refl S, by omega, by
          rw [if_pos rfl]; omega⟩)

theorem claim_C10_witness :
    1 ≤ ceilDivNat (50 - 16) 16 ∧
    16 * ceilDivNat (50 - 16) 16 < 50 ∧
    (∃! i, 1 ≤ i ∧ i ≤ ceilDivNat (50 - 16) 16 ∧ 16 * i ≤ 33 ∧
      33 < 16 * i + (if i = ceilDivNat (50 - 16) 16 then
        50 - 16 * ceilDivNat (50 - 16) 16 else 16)) :=
  have h := claim_C10 50 16 (ceilDivNat (50 - 16) 16) (by norm_num)
    (by norm_num) (by norm_num) rfl
  have h33 := h.2.2.2.2.2 33 (by norm_num) (by norm_num) (by norm_num)
  ⟨h.1, h.2.1, by
    rcases h33 with ⟨h1, _⟩ | ⟨_, h2⟩
    · rw [h.2.2.2.2.1] at h1
      norm_num at h1
    · exact h2⟩

end Primes
